import Mathlib

/-!
Verification development for `shreducers/parse_tree.py`.

The Python values that flow through the engine are modelled by `Val`:
`vnone` is Python `None`, `vbool` / `vint` / `vstr` are primitive leaf
values, `vlist` is a Python list, `vtup` is a Python tuple (the raw
ordered representation of a tree node), and `vnode op a b x` is a
`PtNode` with operator `op`, operand slots `a` / `b` and the extras
dictionary `x` (a `PtNodeExtras`).
-/

inductive Val where
  | vnone : Val
  | vbool : Bool → Val
  | vint : Int → Val
  | vstr : String → Val
  | vlist : List Val → Val
  | vtup : List Val → Val
  | vnode : Val → Val → Val → List (String × Val) → Val

/-- Extras dictionary attached to every node (`PtNodeExtras`). -/
abbrev Extras := List (String × Val)

/-- Reading a key of a `PtNodeExtras`: a missing key yields `None`
(`__missing__` inserts the key with value `None` and returns it; the
insert is invisible to every later read, so a pure lookup with default
`None` is observationally equivalent). -/
def xGet (x : Extras) (k : String) : Val :=
  match x with
  | [] => .vnone
  | (k1, v) :: rest => if k1 = k then v else xGet rest k

/-- Writing a key of a `PtNodeExtras` (`__setattr__` / `__setitem__`):
the binding for the key is replaced, or appended when absent. -/
def xSet (x : Extras) (k : String) (v : Val) : Extras :=
  match x with
  | [] => [(k, v)]
  | (k1, v1) :: rest => if k1 = k then (k, v) :: rest else (k1, v1) :: xSet rest k v

/-- `dict.update(marks)`: set every binding of `marks` in order. -/
def xUpdate (x : Extras) (marks : Extras) : Extras :=
  marks.foldl (fun acc kv => xSet acc kv.1 kv.2) x

def isNodeV : Val → Bool
  | .vnode _ _ _ _ => true
  | _ => false

def isTupV : Val → Bool
  | .vtup _ => true
  | _ => false

def isNoneV : Val → Bool
  | .vnone => true
  | _ => false

/-- A primitive in the sense of the engine: neither a `PtNode` nor a
tuple (so it is never materialized and is routed to `process_primitive`). -/
def isPrimV (v : Val) : Bool := !isTupV v && !isNodeV v

/-- `PtNode.__init__` applied to a single tuple argument: positional
elements are assigned to the `op`, `a`, `b` slots in order (a missing
position stays `None`) and the extras dictionary starts empty.  The
raw ordered representations of this spec carry an operator plus one or
two children, so elements past the third are not modelled. -/
def tupToNode : List Val → Val
  | [] => .vnode .vnone .vnone .vnone []
  | [op] => .vnode op .vnone .vnone []
  | [op, a] => .vnode op a .vnone []
  | op :: a :: b :: _ => .vnode op a b []

/-- One step of lazy materialization: a stored tuple is converted to a
`PtNode` (properties `PtNode.a` / `PtNode.b` and the tuple branch of
`process`); every other value is returned unchanged. -/
def matVal : Val → Val
  | .vtup es => tupToNode es
  | v => v

/-- Reading the property `PtNode.a`: the returned value together with
the node after the read (a raw tuple operand is materialized and the
materialized node overwrites the stored raw form in place). -/
def readA : Val → Val × Val
  | .vnode op a b x => (matVal a, .vnode op (matVal a) b x)
  | v => (v, v)

/-- Reading the property `PtNode.b`, with the same memoization. -/
def readB : Val → Val × Val
  | .vnode op a b x => (matVal b, .vnode op a (matVal b) x)
  | v => (v, v)

mutual
/-- Size measure used for termination of the traversal functions. -/
def vsize : Val → Nat
  | .vnone => 0
  | .vbool _ => 0
  | .vint _ => 0
  | .vstr _ => 0
  | .vlist es => 1 + vsizeL es
  | .vtup es => 2 + vsizeL es
  | .vnode op a b x => 1 + vsize op + vsize a + vsize b + vsizeX x

def vsizeL : List Val → Nat
  | [] => 0
  | v :: vs => vsize v + vsizeL vs

def vsizeX : List (String × Val) → Nat
  | [] => 0
  | kv :: rest => vsize kv.2 + vsizeX rest
end

theorem vsize_tupToNode_lt (es : List Val) : vsize (tupToNode es) < vsize (.vtup es) := by
  rcases es with _ | ⟨e0, _ | ⟨e1, _ | ⟨e2, rest⟩⟩⟩ <;>
    simp [tupToNode, vsize, vsizeL, vsizeX] <;> omega

theorem vsize_matVal_le (v : Val) : vsize (matVal v) ≤ vsize v := by
  cases v with
  | vtup es => exact Nat.le_of_lt (vsize_tupToNode_lt es)
  | _ => simp [matVal]

/-- The single error kind of the engine (`PtNodeNotRecognised`),
plus the host-level failures the code can signal: a failing `assert`
in `ParseTreeMultiProcessor.process`, an attribute access on a value
that is not a `PtNode`, and an explicit `RuntimeError`. -/
inductive PyErr where
  | notRecognised : Val → PyErr
  | assertError : PyErr
  | attrError : PyErr
  | runtimeError : String → PyErr

/-- A `ParseTreeProcessor` (or a subclass of it): `strict` is the
constructor flag; `handlers` models the `process_<op>` methods (the
name-keyed lookup performed by `do_process`); `primH` models
`process_primitive` (identity by default); `unrecH` models a subclass
override of `process_unrecognised` (`none` when not overridden). -/
structure Processor where
  strict : Bool := false
  handlers : Val → Option (Val → Val) := fun _ => none
  primH : Val → Val := id
  unrecH : Option (Val → Val) := none

/-- `ParseTreeProcessor()` with no handler methods. -/
def defaultP : Processor := {}

/-- `ParseTreeProcessor.do_process`: dispatch the node to the handler
registered for its operator, falling back to `process_unrecognised`,
whose default raises `PtNodeNotRecognised` exactly in strict mode.
A value without an `op` attribute raises `AttributeError`. -/
def doProcess (p : Processor) (v : Val) : Except PyErr Val :=
  match v with
  | .vnode op _ _ _ =>
    match p.handlers op with
    | some h => .ok (h v)
    | none =>
      match p.unrecH with
      | some u => .ok (u v)
      | none => if p.strict then .error (.notRecognised v) else .ok v
  | _ => .error .attrError

/-- `ParseTreeProcessor.process`: a tuple is materialized first; for a
node, operand `a` is replaced by its recursively processed value, then
operand `b` when it is not `None`, and the updated node is dispatched
through `do_process`; any other value goes to `process_primitive`. -/
def procProcess (p : Processor) : Val → Except PyErr Val
  | .vtup es => procProcess p (tupToNode es)
  | .vnode op a b x =>
    match procProcess p (matVal a) with
    | .error e => .error e
    | .ok a1 =>
      if isNoneV (matVal b) then doProcess p (.vnode op a1 .vnone x)
      else
        match procProcess p (matVal b) with
        | .error e => .error e
        | .ok b1 => doProcess p (.vnode op a1 b1 x)
  | v => .ok (p.primH v)
termination_by v => vsize v
decreasing_by
  · exact vsize_tupToNode_lt es
  · have h := vsize_matVal_le a
    simp [vsize]; omega
  · have h := vsize_matVal_le b
    simp [vsize]; omega

/-- `PtNode.to_tuple`: the operator followed by the rendering of each
present operand (`operands` yields `(a,)` when `b` is `None`, else
`(a, b)`; the property reads materialize raw operands on the way);
an operand that is a node is rendered recursively, any other operand
is taken as is. -/
def toTuple : Val → Val
  | .vnode op a b _x =>
    let ra := if isNodeV (matVal a) then toTuple (matVal a) else matVal a
    if isNoneV (matVal b) then .vtup [op, ra]
    else
      let rb := if isNodeV (matVal b) then toTuple (matVal b) else matVal b
      .vtup [op, ra, rb]
  | v => v
termination_by v => vsize v
decreasing_by
  all_goals
    first
    | exact vsize_tupToNode_lt _
    | (refine lt_of_le_of_lt (vsize_matVal_le _) ?_
       simp [vsize]; omega)

/-- Full materialization of a tree: the value `process` of a processor
with no handler methods returns (operands are materialized and
traversed, the dispatch leaves every node unchanged). -/
def deepMat : Val → Val
  | .vtup es => deepMat (tupToNode es)
  | .vnode op a b x =>
    if isNoneV (matVal b) then .vnode op (deepMat (matVal a)) .vnone x
    else .vnode op (deepMat (matVal a)) (deepMat (matVal b)) x
  | v => v
termination_by v => vsize v
decreasing_by
  all_goals
    first
    | exact vsize_tupToNode_lt _
    | (refine lt_of_le_of_lt (vsize_matVal_le _) ?_
       simp [vsize]; omega)

/-- Handler registry built by `ParseTreeProcessor.__new__` together
with name-based lookup: `delegate_of` registrations are bound as
instance attributes for every listed name, so they shadow the plain
`process_<op>` class methods; lookup is keyed by the operator tag
(the methods are named `process_<op>`, so for the string tags used
here the name lookup and the tag lookup coincide). -/
def mkHandlers (methods : List (String × (Val → Val)))
    (delegs : List (List String × (Val → Val))) : Val → Option (Val → Val) :=
  fun op =>
    match op with
    | .vstr s =>
      match delegs.find? (fun d => d.1.contains s) with
      | some d => some d.2
      | none => (methods.find? (fun m => m.1 == s)).map (fun m => m.2)
    | _ => none

/-- A processor subclass assembled from its constructor flag, its
plain per-operator methods and its `delegate_of` registrations. -/
def mkProcessor (strict : Bool) (methods : List (String × (Val → Val)))
    (delegs : List (List String × (Val → Val))) : Processor :=
  { strict := strict, handlers := mkHandlers methods delegs }

/-- `PtNode.mark_operands(**marks)`: each operand is read through its
property (materializing a raw tuple in place) and, when the value is a
node, its extras dictionary is updated with `marks`. -/
def markOperands (v : Val) (marks : Extras) : Val :=
  match v with
  | .vnode op a b x =>
    let a1 := matVal a
    let a2 := if isNodeV a1 then setMarks a1 marks else a1
    let b1 := matVal b
    let b2 := if isNodeV b1 then setMarks b1 marks else b1
    .vnode op a2 b2 x
  | v => v
where
  setMarks (w : Val) (marks : Extras) : Val :=
    match w with
    | .vnode op a b x => .vnode op a b (xUpdate x marks)
    | w => w

/-- A value acceptable as a slot member of `ParseTreeMultiProcessor`:
the constructor accepts any processor object, so both plain processors
and multi-processors are representable (Python imposes no type
restriction on slot members). Slot specifications are stored in the
normalized form that `_current_slot` produces: one list of members per
slot. -/
inductive ProcLike where
  | single : Processor → ProcLike
  | multi : List (List ProcLike) → ProcLike

mutual
def psize : ProcLike → Nat
  | .single _ => 1
  | .multi slots => psizeSlots slots + 2

def psizeSlots : List (List ProcLike) → Nat
  | [] => 0
  | s :: rest => psizeSlot s + psizeSlots rest + 1

def psizeSlot : List ProcLike → Nat
  | [] => 0
  | p :: rest => psize p + psizeSlot rest + 1
end

/-- `do_process` of a slot member: a plain processor dispatches as
usual; `ParseTreeMultiProcessor.do_process` raises `RuntimeError`. -/
def plDoProcess (pl : ProcLike) (v : Val) : Except PyErr Val :=
  match pl with
  | .single p => doProcess p v
  | .multi _ => .error (.runtimeError "Do not call this")

mutual
/-- `process` of a slot member: a plain processor runs its ordinary
full recursive traversal; a multi-processor runs its own `process`. -/
def plProcess (pl : ProcLike) (v : Val) : Except PyErr Val :=
  match pl with
  | .single p => procProcess p v
  | .multi slots => mpRun slots v
termination_by psize pl
decreasing_by all_goals (simp [psize, psizeSlots, psizeSlot]; try omega)

/-- `ParseTreeMultiProcessor.process`: materialize a raw root, assert
that the argument is a node whose `is_root` extra is still unset, mark
the root `is_root = True` and its direct node operands
`is_root = False`, then run every slot in order. -/
def mpRun (slots : List (List ProcLike)) (v : Val) : Except PyErr Val :=
  match matVal v with
  | .vnode op a b x =>
    if isNoneV (xGet x "is_root") then
      mpLoop slots (markOperands (.vnode op a b (xSet x "is_root" (.vbool true)))
        [("is_root", .vbool false)])
    else .error .assertError
  | _ => .error .assertError
termination_by psizeSlots slots + 1
decreasing_by all_goals (simp [psize, psizeSlots, psizeSlot]; try omega)

/-- The slot loop of `ParseTreeMultiProcessor.process`: for each slot,
operand `a` is replaced by the result of chaining the members' full
`process` over it, then operand `b` when it is not `None`, then the
node itself is replaced by the result of chaining the members'
`do_process` over it. -/
def mpLoop (slots : List (List ProcLike)) (v : Val) : Except PyErr Val :=
  match slots with
  | [] => .ok v
  | slot :: rest =>
    match v with
    | .vnode op a b x =>
      match chainP slot (matVal a) with
      | .error e => .error e
      | .ok a1 =>
        if isNoneV (matVal b) then
          match chainD slot (.vnode op a1 .vnone x) with
          | .error e => .error e
          | .ok v1 => mpLoop rest v1
        else
          match chainP slot (matVal b) with
          | .error e => .error e
          | .ok b1 =>
            match chainD slot (.vnode op a1 b1 x) with
            | .error e => .error e
            | .ok v1 => mpLoop rest v1
    | _ => .error .attrError
termination_by psizeSlots slots
decreasing_by all_goals (simp [psize, psizeSlots, psizeSlot]; try omega)

/-- `_process_in_current_slot('process', node)`: chain the members'
`process`, each consuming the previous output. -/
def chainP (ps : List ProcLike) (v : Val) : Except PyErr Val :=
  match ps with
  | [] => .ok v
  | p :: rest =>
    match plProcess p v with
    | .error e => .error e
    | .ok v1 => chainP rest v1
termination_by psizeSlot ps
decreasing_by all_goals (simp [psize, psizeSlots, psizeSlot]; try omega)

/-- `_process_in_current_slot('do_process', node)`: chain the members'
`do_process`, each consuming the previous output. -/
def chainD (ps : List ProcLike) (v : Val) : Except PyErr Val :=
  match ps with
  | [] => .ok v
  | p :: rest =>
    match plDoProcess p v with
    | .error e => .error e
    | .ok v1 => chainD rest v1
termination_by psizeSlot ps
decreasing_by all_goals (simp [psize, psizeSlots, psizeSlot]; try omega)
end

theorem matVal_tupToNode (es : List Val) : matVal (tupToNode es) = tupToNode es := by
  rcases es with _ | ⟨e0, _ | ⟨e1, _ | ⟨e2, rest⟩⟩⟩ <;> rfl

theorem isNodeV_tupToNode (es : List Val) : isNodeV (tupToNode es) = true := by
  rcases es with _ | ⟨e0, _ | ⟨e1, _ | ⟨e2, rest⟩⟩⟩ <;> rfl

theorem matVal_matVal (v : Val) : matVal (matVal v) = matVal v := by
  cases v with
  | vtup es => exact matVal_tupToNode es
  | _ => rfl

theorem isTupV_matVal (v : Val) : isTupV (matVal v) = false := by
  cases v with
  | vtup es => rcases es with _ | ⟨e0, _ | ⟨e1, _ | ⟨e2, rest⟩⟩⟩ <;> rfl
  | _ => rfl

theorem matVal_of_not_tup {v : Val} (h : isTupV v = false) : matVal v = v := by
  cases v <;> simp_all [isTupV, matVal]

theorem isNoneV_matVal (v : Val) : isNoneV (matVal v) = isNoneV v := by
  cases v with
  | vtup es => rcases es with _ | ⟨e0, _ | ⟨e1, _ | ⟨e2, rest⟩⟩⟩ <;> rfl
  | _ => rfl

theorem xGet_xSet (x : Extras) (k : String) (v : Val) : xGet (xSet x k v) k = v := by
  induction x with
  | nil => simp [xGet, xSet]
  | cons kv rest ih =>
    by_cases h : kv.1 = k <;> simp [xGet, xSet, h, ih]

mutual
/-- No node of the operand tree of `v` carries an `is_root` extra
(the fresh-tree condition of the multi-processor contract). -/
def noIsRoot : Val → Bool
  | .vnode _ a b x => isNoneV (xGet x "is_root") && noIsRoot a && noIsRoot b
  | .vtup es => noIsRootL es
  | _ => true

def noIsRootL : List Val → Bool
  | [] => true
  | v :: vs => noIsRoot v && noIsRootL vs
end

theorem noIsRoot_matVal {v : Val} (h : noIsRoot v = true) : noIsRoot (matVal v) = true := by
  cases v with
  | vtup es =>
    rcases es with _ | ⟨e0, _ | ⟨e1, _ | ⟨e2, rest⟩⟩⟩ <;>
      simp_all [matVal, tupToNode, noIsRoot, noIsRootL, xGet, isNoneV]
  | _ => simpa [matVal] using h

def isTrueV : Val → Bool
  | .vbool true => true
  | _ => false

def isFalseV : Val → Bool
  | .vbool false => true
  | _ => false

/-- A direct operand of the root after the root-marking step: when it
is a node, its `is_root` extra is `False` and everything below it is
still unmarked; a non-node operand is a primitive (never a raw tuple,
since the marking step materialized it). -/
def childOk : Val → Bool
  | .vnode _ a b x => isFalseV (xGet x "is_root") && noIsRoot a && noIsRoot b
  | v => !isTupV v

/-- The annotation shape the multi-processor leaves behind: the root
carries `is_root = True` and each direct operand is `childOk`. -/
def resultMarked : Val → Bool
  | .vnode _ a b x => isTrueV (xGet x "is_root") && childOk a && childOk b
  | _ => false

theorem childOk_not_tup {v : Val} (h : childOk v = true) : isTupV v = false := by
  cases v <;> simp_all [childOk, isTupV]

theorem deepMat_prim {v : Val} (ht : isTupV v = false) (hn : isNodeV v = false) :
    deepMat v = v := by
  cases v <;> simp_all [isTupV, isNodeV, deepMat]

theorem not_tup_of_ne {v : Val} (h : ∀ es, v = Val.vtup es → False) : isTupV v = false := by
  cases v with
  | vtup es => exact (h es rfl).elim
  | _ => rfl

theorem not_node_of_ne {v : Val}
    (h : ∀ (op a b : Val) (x : Extras), v = Val.vnode op a b x → False) :
    isNodeV v = false := by
  cases v with
  | vnode op a b x => exact (h op a b x rfl).elim
  | _ => rfl

theorem deepMat_tup (es : List Val) : deepMat (.vtup es) = deepMat (tupToNode es) := by
  simp only [deepMat]

theorem deepMat_node (op a b : Val) (x : Extras) :
    deepMat (.vnode op a b x) =
      if isNoneV (matVal b) then .vnode op (deepMat (matVal a)) .vnone x
      else .vnode op (deepMat (matVal a)) (deepMat (matVal b)) x := by
  simp only [deepMat]

theorem noIsRoot_node_parts {op a b : Val} {x : Extras}
    (h : noIsRoot (.vnode op a b x) = true) :
    isNoneV (xGet x "is_root") = true ∧ noIsRoot a = true ∧ noIsRoot b = true := by
  have h1 := h
  simp only [noIsRoot, Bool.and_eq_true] at h1
  exact ⟨h1.1.1, h1.1.2, h1.2⟩

theorem noIsRoot_deepMat {v : Val} (h : noIsRoot v = true) : noIsRoot (deepMat v) = true := by
  induction v using deepMat.induct with
  | case1 es ih =>
    rw [deepMat_tup]
    exact ih (by simpa [matVal] using noIsRoot_matVal h)
  | case2 op a b x hb iha =>
    obtain ⟨h1, h2, h3⟩ := noIsRoot_node_parts h
    rw [deepMat_node]
    simp [hb, noIsRoot, h1, iha (noIsRoot_matVal h2)]
  | case3 op a b x hb iha ihb =>
    obtain ⟨h1, h2, h3⟩ := noIsRoot_node_parts h
    rw [deepMat_node]
    simp [hb, noIsRoot, h1, iha (noIsRoot_matVal h2), ihb (noIsRoot_matVal h3)]
  | case4 v hvt hvn =>
    rw [deepMat_prim (not_tup_of_ne hvt) (not_node_of_ne hvn)]
    exact h

theorem childOk_deepMat {v : Val} (h : childOk v = true) : childOk (deepMat v) = true := by
  cases v with
  | vnode op a b x =>
    have hx : isFalseV (xGet x "is_root") = true ∧ noIsRoot a = true ∧ noIsRoot b = true := by
      have h1 := h
      simp only [childOk, Bool.and_eq_true] at h1
      exact ⟨h1.1.1, h1.1.2, h1.2⟩
    rw [deepMat_node]
    by_cases hb : isNoneV (matVal b) = true <;>
      simp [hb, childOk, hx.1, noIsRoot,
        noIsRoot_deepMat (noIsRoot_matVal hx.2.1),
        noIsRoot_deepMat (noIsRoot_matVal hx.2.2)]
  | vtup es => simp [childOk, isTupV] at h
  | _ => simpa [deepMat] using h

theorem procProcess_default (v : Val) : procProcess defaultP v = .ok (deepMat v) := by
  induction v using deepMat.induct with
  | case1 es ih =>
    rw [deepMat_tup]
    simpa only [procProcess] using ih
  | case2 op a b x hb iha =>
    rw [deepMat_node]
    simp only [procProcess, iha, hb, if_true]
    simp [doProcess, defaultP, hb]
  | case3 op a b x hb iha ihb =>
    rw [deepMat_node]
    simp only [procProcess, iha, ihb]
    simp [doProcess, defaultP, hb]
  | case4 v hvt hvn =>
    rw [deepMat_prim (not_tup_of_ne hvt) (not_node_of_ne hvn)]
    cases v with
    | vtup es => exact (hvt es rfl).elim
    | vnode op a b x => exact (hvn op a b x rfl).elim
    | _ => simp [procProcess, defaultP]

/-- The slot list of a multi-processor whose members are all plain
`ParseTreeProcessor()` instances, one slot per entry of `shape`. -/
def dSlots (shape : List Nat) : List (List ProcLike) :=
  shape.map (fun n => List.replicate n (.single defaultP))

theorem chainP_default_pres {v : Val} (n : Nat) (h : childOk v = true) :
    ∃ w, chainP (List.replicate n (.single defaultP)) v = .ok w ∧ childOk w = true := by
  induction n generalizing v with
  | zero => exact ⟨v, by simp [chainP], h⟩
  | succ n ih =>
    obtain ⟨w, hw, hcw⟩ := ih (childOk_deepMat h)
    refine ⟨w, ?_, hcw⟩
    simp [List.replicate, chainP, plProcess, procProcess_default v, hw]

theorem doProcess_default_node (op a b : Val) (x : Extras) :
    doProcess defaultP (.vnode op a b x) = .ok (.vnode op a b x) := by
  simp [doProcess, defaultP]

theorem chainD_default_node (n : Nat) (op a b : Val) (x : Extras) :
    chainD (List.replicate n (.single defaultP)) (.vnode op a b x) = .ok (.vnode op a b x) := by
  induction n with
  | zero => simp [chainD]
  | succ n ih => simp [List.replicate, chainD, plDoProcess, doProcess_default_node, ih]

theorem childOk_vnone : childOk .vnone = true := rfl

theorem resultMarked_parts {op a b : Val} {x : Extras}
    (h : resultMarked (.vnode op a b x) = true) :
    isTrueV (xGet x "is_root") = true ∧ childOk a = true ∧ childOk b = true := by
  have h1 := h
  simp only [resultMarked, Bool.and_eq_true] at h1
  exact ⟨h1.1.1, h1.1.2, h1.2⟩

theorem mpLoop_default (shape : List Nat) {v : Val} (h : resultMarked v = true) :
    ∃ r, mpLoop (dSlots shape) v = .ok r ∧ resultMarked r = true := by
  induction shape generalizing v with
  | nil => exact ⟨v, by simp [dSlots, mpLoop], h⟩
  | cons n rest ih =>
    have hds : dSlots (n :: rest) =
        List.replicate n (ProcLike.single defaultP) :: dSlots rest := by
      simp [dSlots]
    cases v with
    | vnode op a b x =>
      obtain ⟨hroot, hca, hcb⟩ := resultMarked_parts h
      have hma : matVal a = a := matVal_of_not_tup (childOk_not_tup hca)
      have hmb : matVal b = b := matVal_of_not_tup (childOk_not_tup hcb)
      obtain ⟨a1, ha1, hca1⟩ := chainP_default_pres n hca
      by_cases hbn : isNoneV b = true
      · have hb : b = .vnone := by cases b <;> simp_all [isNoneV]
        subst hb
        have hm1 : resultMarked (.vnode op a1 .vnone x) = true := by
          simp [resultMarked, hroot, hca1, childOk_vnone]
        obtain ⟨r, hr, hrm⟩ := ih hm1
        refine ⟨r, ?_, hrm⟩
        rw [hds]
        simp only [mpLoop]
        rw [hma]
        simp [matVal, isNoneV, ha1, chainD_default_node, hr]
      · obtain ⟨b1, hb1, hcb1⟩ := chainP_default_pres n hcb
        have hm1 : resultMarked (.vnode op a1 b1 x) = true := by
          simp [resultMarked, hroot, hca1, hcb1]
        obtain ⟨r, hr, hrm⟩ := ih hm1
        refine ⟨r, ?_, hrm⟩
        rw [hds]
        simp only [mpLoop]
        rw [hma, hmb]
        simp [hbn, ha1, hb1, chainD_default_node, hr]
    | _ => simp [resultMarked] at h

theorem mark_child_ok {w : Val} (h : noIsRoot w = true) :
    childOk (if isNodeV (matVal w) then
      markOperands.setMarks (matVal w) [("is_root", .vbool false)] else matVal w) = true := by
  cases hm : matVal w with
  | vnode op a b x =>
    have hn : noIsRoot (.vnode op a b x) = true := hm ▸ noIsRoot_matVal h
    obtain ⟨p1, p2, p3⟩ := noIsRoot_node_parts hn
    simp [isNodeV, markOperands.setMarks, xUpdate, childOk, xGet_xSet, isFalseV, p2, p3]
  | vtup es =>
    have := isTupV_matVal w
    rw [hm] at this
    simp [isTupV] at this
  | _ => simp [isNodeV, childOk, isTupV]

/-- The `is_root` extra of a node (`None` for anything else). -/
def isRootOf : Val → Val
  | .vnode _ _ _ x => xGet x "is_root"
  | _ => .vnone

theorem isNoneV_false_of_isTrueV {v : Val} (h : isTrueV v = true) : isNoneV v = false := by
  cases v with
  | vbool bb => cases bb <;> rfl
  | _ => simp [isTrueV] at h

theorem mpRun_marked_err (slots : List (List ProcLike)) {v : Val}
    (hnode : isNodeV (matVal v) = true)
    (hset : isNoneV (isRootOf (matVal v)) = false) :
    mpRun slots v = .error .assertError := by
  cases hm : matVal v with
  | vnode op a b x =>
    rw [hm] at hset
    simp only [isRootOf] at hset
    simp only [mpRun]
    rw [hm]
    simp [hset]
  | _ => rw [hm] at hnode; simp [isNodeV] at hnode

theorem mpRun_default_ok (shape : List Nat) {v : Val}
    (hnode : isNodeV (matVal v) = true) (hfresh : noIsRoot v = true) :
    ∃ r, mpRun (dSlots shape) v = .ok r ∧ resultMarked r = true := by
  cases hm : matVal v with
  | vnode op a b x =>
    have hall : noIsRoot (.vnode op a b x) = true := hm ▸ noIsRoot_matVal hfresh
    obtain ⟨h1, h2, h3⟩ := noIsRoot_node_parts hall
    have hm0 : resultMarked (markOperands
        (.vnode op a b (xSet x "is_root" (.vbool true))) [("is_root", .vbool false)]) = true := by
      simp only [markOperands]
      simp [resultMarked, xGet_xSet, isTrueV, mark_child_ok h2, mark_child_ok h3]
    obtain ⟨r, hr, hrm⟩ := mpLoop_default shape hm0
    refine ⟨r, ?_, hrm⟩
    simp only [mpRun]
    rw [hm]
    simp [h1, hr]
  | _ => rw [hm] at hnode; simp [isNodeV] at hnode

theorem mpRun_second_call (slots : List (List ProcLike)) {r : Val}
    (h : resultMarked r = true) : mpRun slots r = .error .assertError := by
  cases r with
  | vnode op a b x =>
    obtain ⟨hroot, -, -⟩ := resultMarked_parts h
    exact mpRun_marked_err slots (by simp [matVal, isNodeV])
      (by simp [matVal, isRootOf, isNoneV_false_of_isTrueV hroot])
  | _ => simp [resultMarked] at h

theorem doProcess_error {p : Processor} {op a b : Val} {x : Extras} {e : PyErr}
    (h : doProcess p (.vnode op a b x) = .error e) :
    p.strict = true ∧ p.unrecH = none ∧ p.handlers op = none ∧
      e = .notRecognised (.vnode op a b x) := by
  simp only [doProcess] at h
  cases hh : p.handlers op with
  | some f => rw [hh] at h; simp at h
  | none =>
    rw [hh] at h
    cases hu : p.unrecH with
    | some u => rw [hu] at h; simp at h
    | none =>
      rw [hu] at h
      cases hs : p.strict with
      | false => rw [hs] at h; simp at h
      | true =>
        rw [hs] at h
        simp only [if_true, Except.error.injEq] at h
        exact ⟨rfl, rfl, rfl, h.symm⟩

theorem doProcess_total {p : Processor}
    (hp : p.strict = false ∨ p.unrecH.isSome = true) (op a b : Val) (x : Extras) :
    ∃ r, doProcess p (.vnode op a b x) = .ok r := by
  simp only [doProcess]
  cases hh : p.handlers op with
  | some f => exact ⟨f (.vnode op a b x), rfl⟩
  | none =>
    cases hu : p.unrecH with
    | some u => exact ⟨u (.vnode op a b x), rfl⟩
    | none =>
      have hs : p.strict = false := by
        rcases hp with hp | hp
        · exact hp
        · rw [hu] at hp; simp at hp
      rw [hs]
      exact ⟨.vnode op a b x, rfl⟩

theorem procProcess_total {p : Processor}
    (hp : p.strict = false ∨ p.unrecH.isSome = true) (v : Val) :
    ∃ r, procProcess p v = .ok r := by
  induction v using procProcess.induct p with
  | case1 es ih =>
    obtain ⟨r, hr⟩ := ih
    exact ⟨r, by simpa only [procProcess] using hr⟩
  | case2 op a b x e0 herr iha =>
    obtain ⟨r, hr⟩ := iha
    rw [hr] at herr
    simp at herr
  | case3 op a b x b1 ha hb iha =>
    obtain ⟨r, hr⟩ := doProcess_total hp op b1 .vnone x
    refine ⟨r, ?_⟩
    simp only [procProcess, ha, hb, if_true]
    exact hr
  | case4 op a b x b1 ha hb e0 herrb iha ihb =>
    obtain ⟨r, hr⟩ := ihb
    rw [hr] at herrb
    simp at herrb
  | case5 op a b x b1 ha hb b2 hbok iha ihb =>
    obtain ⟨r, hr⟩ := doProcess_total hp op b1 b2 x
    refine ⟨r, ?_⟩
    simp only [procProcess, ha]
    rw [if_neg hb, hbok]
    exact hr
  | case6 v h1 h2 =>
    cases v with
    | vtup es => exact (h1 es rfl).elim
    | vnode op a b x => exact (h2 op a b x rfl).elim
    | vnone => exact ⟨p.primH .vnone, by simp [procProcess]⟩
    | vbool bb => exact ⟨p.primH (.vbool bb), by simp [procProcess]⟩
    | vint n => exact ⟨p.primH (.vint n), by simp [procProcess]⟩
    | vstr st => exact ⟨p.primH (.vstr st), by simp [procProcess]⟩
    | vlist l => exact ⟨p.primH (.vlist l), by simp [procProcess]⟩

theorem procProcess_error {p : Processor} {v : Val} :
    ∀ {e : PyErr}, procProcess p v = .error e →
      p.strict = true ∧ p.unrecH = none ∧
        ∃ op a b x, e = .notRecognised (.vnode op a b x) ∧ p.handlers op = none := by
  induction v using procProcess.induct p with
  | case1 es ih =>
    intro e h
    exact ih (by simpa only [procProcess] using h)
  | case2 op a b x e0 herr iha =>
    intro e h
    simp only [procProcess, herr, Except.error.injEq] at h
    exact h ▸ iha herr
  | case3 op a b x b1 ha hb iha =>
    intro e h
    simp only [procProcess, ha, hb, if_true] at h
    obtain ⟨hs, hu, hh, he⟩ := doProcess_error h
    exact ⟨hs, hu, op, b1, .vnone, x, he, hh⟩
  | case4 op a b x b1 ha hb e0 herrb iha ihb =>
    intro e h
    simp only [procProcess, ha] at h
    rw [if_neg hb, herrb] at h
    simp only [Except.error.injEq] at h
    exact h ▸ ihb herrb
  | case5 op a b x b1 ha hb b2 hbok iha ihb =>
    intro e h
    simp only [procProcess, ha] at h
    rw [if_neg hb, hbok] at h
    obtain ⟨hs, hu, hh, he⟩ := doProcess_error h
    exact ⟨hs, hu, op, b1, b2, x, he, hh⟩
  | case6 v h1 h2 =>
    intro e h
    cases v with
    | vtup es => exact (h1 es rfl).elim
    | vnode op a b x => exact (h2 op a b x rfl).elim
    | _ => simp [procProcess] at h

theorem procProcess_prim {p : Processor} {v : Val} (h : isPrimV v = true) :
    procProcess p v = .ok (p.primH v) := by
  cases v <;> simp_all [isPrimV, isTupV, isNodeV, procProcess]

/-- A raw ordered representation: an operator tag plus one or two
child representations, each child either a leaf value or a nested raw
representation. -/
inductive Raw where
  | leaf : Val → Raw
  | one : Val → Raw → Raw
  | two : Val → Raw → Raw → Raw

/-- The Python value denoted by a raw representation. -/
def rawVal : Raw → Val
  | .leaf v => v
  | .one op c => .vtup [op, rawVal c]
  | .two op c d => .vtup [op, rawVal c, rawVal d]

/-- Well-formedness of a raw representation: every leaf child is a
primitive (not itself a tuple or an already-built node). -/
def rawWF : Raw → Bool
  | .leaf v => isPrimV v
  | .one _ c => rawWF c
  | .two _ c d => rawWF c && rawWF d

def isLeafRaw : Raw → Bool
  | .leaf _ => true
  | _ => false

/-- No second child of any nested raw representation is the absence
sentinel `None` (the engine reads a `None` second operand as "unary
node", so such a child cannot survive a round trip). -/
def rawNoNoneSnd : Raw → Bool
  | .leaf _ => true
  | .one _ c => rawNoNoneSnd c
  | .two _ c d => rawNoNoneSnd c && rawNoNoneSnd d && !isNoneV (rawVal d)

theorem toTuple_node (op a b : Val) (x : Extras) :
    toTuple (.vnode op a b x) =
      if isNoneV (matVal b) then
        .vtup [op, if isNodeV (matVal a) then toTuple (matVal a) else matVal a]
      else
        .vtup [op, if isNodeV (matVal a) then toTuple (matVal a) else matVal a,
          if isNodeV (matVal b) then toTuple (matVal b) else matVal b] := by
  simp only [toTuple]

theorem raw_round {r : Raw} (hwf : rawWF r = true) (hn : rawNoNoneSnd r = true) :
    (if isNodeV (matVal (rawVal r)) then toTuple (matVal (rawVal r))
     else matVal (rawVal r)) = rawVal r := by
  induction r with
  | leaf v =>
    have ht : isTupV v = false := by
      simp only [rawWF, isPrimV, Bool.and_eq_true, Bool.not_eq_true'] at hwf
      exact hwf.1
    have hnd : isNodeV v = false := by
      simp only [rawWF, isPrimV, Bool.and_eq_true, Bool.not_eq_true'] at hwf
      exact hwf.2
    simp [rawVal, matVal_of_not_tup ht, hnd]
  | one op c ihc =>
    have hc := ihc (by simpa [rawWF] using hwf) (by simpa [rawNoNoneSnd] using hn)
    simp only [rawVal, matVal, tupToNode, isNodeV, if_true]
    rw [toTuple_node]
    have h1 : isNoneV (matVal Val.vnone) = true := rfl
    simp only [h1, if_true]
    rw [hc]
  | two op c d ihc ihd =>
    simp only [rawWF, Bool.and_eq_true] at hwf
    simp only [rawNoNoneSnd, Bool.and_eq_true, Bool.not_eq_true'] at hn
    have hc := ihc hwf.1 hn.1.1
    have hd := ihd hwf.2 hn.1.2
    have hdn : isNoneV (matVal (rawVal d)) = false := by
      rw [isNoneV_matVal]; exact hn.2
    simp only [rawVal, matVal, tupToNode, isNodeV, if_true]
    rw [toTuple_node, hdn]
    simp only [Bool.false_eq_true, if_false]
    rw [hc, hd]

/-- Slot-1 processor of the multi-slot ordering scenario: its
`process_unrecognised` override tags every node it dispatches with
`seen1 = True`. -/
def tagSeen1 : Val → Val
  | .vnode op a b x => .vnode op a b (xSet x "seen1" (.vbool true))
  | v => v

/-- Slot-2 processors of the multi-slot ordering scenario: the
`process_unrecognised` override appends the processor name to the
`seenOrder` extra and records the `seen1` value it observes under
`saw1<name>`. -/
def stamp (name : String) (v : Val) : Val :=
  match v with
  | .vnode op a b x =>
    let so := match xGet x "seenOrder" with
      | .vlist l => l
      | _ => []
    .vnode op a b
      (xSet (xSet x "seenOrder" (.vlist (so ++ [.vstr name]))) ("saw1" ++ name)
        (xGet x "seen1"))
  | v => v

def p1 : Processor := { unrecH := some tagSeen1 }

def p2 : Processor := { unrecH := some (stamp "P2") }

def p3 : Processor := { unrecH := some (stamp "P3") }

/-- `ParseTreeMultiProcessor(p1, (p2, p3))`: two slots, the second
containing two processors chained within one traversal stage. -/
def engC1 : List (List ProcLike) := [[.single p1], [.single p2, .single p3]]

def inC1 : Val := .vtup [.vstr "op", .vtup [.vstr "u", .vint 1], .vtup [.vstr "w", .vint 2]]

/-- Expected operand of the multi-slot scenario output: marked
`is_root = False` by the root marking, tagged `seen1 = True` by slot 1,
stamped by `P2` then `P3` in slot 2 (each observing `seen1 = True`). -/
def outOp (u : String) (i : Int) : Val :=
  .vnode (.vstr u) (.vint i) .vnone
    [("is_root", .vbool false), ("seen1", .vbool true),
     ("seenOrder", .vlist [.vstr "P2", .vstr "P3"]),
     ("saw1P2", .vbool true), ("saw1P3", .vbool true)]

/-- Expected root of the multi-slot scenario output. -/
def outC1 : Val :=
  .vnode (.vstr "op") (outOp "u" 1) (outOp "w" 2)
    [("is_root", .vbool true), ("seen1", .vbool true),
     ("seenOrder", .vlist [.vstr "P2", .vstr "P3"]),
     ("saw1P2", .vbool true), ("saw1P3", .vbool true)]

/-- Claim C1: for a multi-processor built from the ordered slots
`[p1, (p2, p3)]`, `process` runs each slot in order as one traversal
stage.  On the input `("op", ("u", 1), ("w", 2))` the computed output
certifies every part of the claim: each operand node carries
`seenOrder = ["P2", "P3"]` exactly once (each slot-2 member's full
recursive `process` ran over the operands, chained in slot order, and
the root was dispatched only through `do_process`, otherwise the
operands would have been stamped twice), the root carries the same
`seenOrder` (its own transformation came from the chained
`do_process`), and `saw1P2 = saw1P3 = True` shows that the `seen1`
extra written by the slot-1 processor was visible to both slot-2
processors. -/
theorem c1_multi_slot_chaining : mpRun engC1 inC1 = .ok outC1 := by
  simp [mpRun, mpLoop, chainP, chainD, plProcess, plDoProcess, procProcess, doProcess,
        matVal, tupToNode, markOperands, markOperands.setMarks, xUpdate, xGet, xSet,
        isNodeV, isNoneV, stamp, tagSeen1, p1, p2, p3, engC1, inC1, outC1, outOp]

/-- Claim C2: a processor's `process` / `do_process` raises an error
if and only if the processor is strict and some dispatched node's
operator has no registered handler and no unrecognized-node override;
the error carries the offending node.  Conjuncts: (1) a non-strict or
overridden processor never raises on any input; (2) every raised error
comes from a strict, non-overridden processor and is
`PtNodeNotRecognised` carrying a node whose operator has no handler;
(3) primitives never raise, they are routed to `process_primitive`;
(4) a strict processor with no handler and no override raises exactly
that error at dispatch; (5) a non-strict one returns the unrecognized
node unchanged. -/
theorem c2_error_iff_strict_unrecognised (p : Processor) :
    ((p.strict = false ∨ p.unrecH.isSome = true) → ∀ v : Val, ∃ r, procProcess p v = .ok r)
    ∧ (∀ (v : Val) (e : PyErr), procProcess p v = .error e →
        p.strict = true ∧ p.unrecH = none ∧
          ∃ op a b x, e = .notRecognised (.vnode op a b x) ∧ p.handlers op = none)
    ∧ (∀ v : Val, isPrimV v = true → procProcess p v = .ok (p.primH v))
    ∧ (∀ (op a b : Val) (x : Extras), p.strict = true → p.unrecH = none →
        p.handlers op = none →
        doProcess p (.vnode op a b x) = .error (.notRecognised (.vnode op a b x)))
    ∧ (∀ (op a b : Val) (x : Extras), p.strict = false → p.unrecH = none →
        p.handlers op = none →
        doProcess p (.vnode op a b x) = .ok (.vnode op a b x)) := by
  refine ⟨fun hp v => procProcess_total hp v,
    fun v e h => procProcess_error h,
    fun v h => procProcess_prim h,
    fun op a b x hs hu hh => by simp [doProcess, hh, hu, hs],
    fun op a b x hs hu hh => by simp [doProcess, hh, hu, hs]⟩

/-- A strict `ParseTreeProcessor(strict=True)` with no handler methods. -/
def strictFoo : Processor := { strict := true }

/-- Witness for C2: the strict processor with no handler for `"foo"`
raises `PtNodeNotRecognised` carrying the `"foo"` node. -/
theorem c2_witness :
    doProcess strictFoo (.vnode (.vstr "foo") (.vint 1) (.vint 2) []) =
      .error (.notRecognised (.vnode (.vstr "foo") (.vint 1) (.vint 2) [])) :=
  (c2_error_iff_strict_unrecognised strictFoo).2.2.2.1
    (.vstr "foo") (.vint 1) (.vint 2) [] rfl rfl rfl

/-- Claim C3: after one `process` call of a multi-processor whose
passes do not touch the `is_root` extra (slots of plain default
processors, any shape) on a fresh tree, the run succeeds and the
result satisfies `resultMarked`: the root's `is_root` extra is `True`,
each direct operand that is a node has `is_root = False` with every
deeper descendant's `is_root` still at the auto-vivified default
(`None`), and non-node operands are untouched primitives. -/
theorem c3_root_marking (shape : List Nat) (v : Val)
    (hnode : isNodeV (matVal v) = true) (hfresh : noIsRoot v = true) :
    ∃ r, mpRun (dSlots shape) v = .ok r ∧ resultMarked r = true :=
  mpRun_default_ok shape hnode hfresh

/-- Witness for C3 at the spec's root-marking scenario
`Engine([P1])` applied to `("x", ("y", 1), ("z", 2))`. -/
theorem c3_witness :
    ∃ r, mpRun (dSlots [1])
        (.vtup [.vstr "x", .vtup [.vstr "y", .vint 1], .vtup [.vstr "z", .vint 2]]) =
        .ok r ∧ resultMarked r = true :=
  c3_root_marking [1] _ (by decide) (by decide)

/-- Claim C4: the precondition of a multi-processor's `process` is
that the root's `is_root` extra is unset: (1) on any root node whose
`is_root` extra is set, `process` fails with the assertion error, for
every slot configuration; (2) processing a fresh tree with a
default-processor engine and then calling `process` again on the
returned (now marked) root fails with the assertion error instead of
completing. -/
theorem c4_second_process_rejected :
    (∀ (slots : List (List ProcLike)) (v : Val),
        isNodeV (matVal v) = true → isNoneV (isRootOf (matVal v)) = false →
        mpRun slots v = .error .assertError)
    ∧ (∀ (shape : List Nat) (v r : Val),
        isNodeV (matVal v) = true → noIsRoot v = true →
        mpRun (dSlots shape) v = .ok r →
        mpRun (dSlots shape) r = .error .assertError) := by
  constructor
  · intro slots v h1 h2
    exact mpRun_marked_err slots h1 h2
  · intro shape v r h1 h2 h3
    obtain ⟨r2, hr2, hm2⟩ := mpRun_default_ok shape h1 h2
    rw [h3] at hr2
    injection hr2 with h4
    subst h4
    exact mpRun_second_call _ hm2

/-- Witness for C4: a root already carrying `is_root = True` is
rejected with the assertion error. -/
theorem c4_witness :
    mpRun [] (.vnode (.vstr "x") (.vint 1) .vnone [("is_root", .vbool true)]) =
      .error .assertError :=
  c4_second_process_rejected.1 [] _ (by decide) (by decide)

/-- Claim C5 counterexample: a multi-processor's `process` given a
primitive root does not return a primitive; it fails the
`assert isinstance(node, PtNode)` (its `process_primitive` is never
invoked). -/
theorem c5_counterexample :
    mpRun [[.single defaultP]] (.vint 5) = .error .assertError := by
  simp [mpRun, matVal]

/-- Claim C5 amended: a multi-processor's `process` accepts a node or
a raw tuple at the root and rejects a primitive root with the
assertion error; only a single processor's `process` returns a
primitive when given a primitive.  Conjuncts: (1) every primitive root
is rejected by the engine, for every slot configuration; (2) a single
processor returns `process_primitive` of a primitive input; (3) a
fresh node or raw-tuple root is accepted by a default-processor
engine. -/
theorem c5_amended (slots : List (List ProcLike)) :
    (∀ v : Val, isPrimV v = true → mpRun slots v = .error .assertError)
    ∧ (∀ (p : Processor) (v : Val), isPrimV v = true → procProcess p v = .ok (p.primH v))
    ∧ (∀ (shape : List Nat) (v : Val), isNodeV (matVal v) = true → noIsRoot v = true →
        ∃ r, mpRun (dSlots shape) v = .ok r) := by
  refine ⟨?_, fun p v h => procProcess_prim h, ?_⟩
  · intro v h
    cases v <;> simp_all [isPrimV, isTupV, isNodeV, mpRun, matVal]
  · intro shape v h1 h2
    obtain ⟨r, hr, -⟩ := mpRun_default_ok shape h1 h2
    exact ⟨r, hr⟩

/-- Witness for the amended C5. -/
theorem c5_witness :
    mpRun [] (.vbool true) = .error .assertError
    ∧ procProcess defaultP (.vint 5) = .ok (defaultP.primH (.vint 5))
    ∧ ∃ r, mpRun (dSlots [1]) (.vtup [.vstr "x", .vint 1]) = .ok r :=
  ⟨(c5_amended []).1 _ (by decide),
   (c5_amended []).2.1 defaultP _ (by decide),
   (c5_amended []).2.2 [1] _ (by decide) (by decide)⟩

/-- Claim C6 counterexample: `("op", 1, None)` is a raw ordered
representation with an operator and two primitive children, yet
`to_tuple` after materialization yields `("op", 1)`, not the original
raw representation: the engine reads a `None` second operand as
"operand absent". -/
theorem c6_counterexample :
    rawWF (Raw.two (.vstr "op") (.leaf (.vint 1)) (.leaf .vnone)) = true
    ∧ rawVal (Raw.two (.vstr "op") (.leaf (.vint 1)) (.leaf .vnone)) =
        .vtup [.vstr "op", .vint 1, .vnone]
    ∧ toTuple (matVal (.vtup [.vstr "op", .vint 1, .vnone])) = .vtup [.vstr "op", .vint 1]
    ∧ (Val.vtup [.vstr "op", .vint 1] ≠ .vtup [.vstr "op", .vint 1, .vnone]) := by
  refine ⟨by decide, rfl, ?_, by simp⟩
  simp [matVal, tupToNode, toTuple_node, isNoneV, isNodeV]

/-- Claim C6 amended: for every tree materialized from a well-formed
raw ordered representation (operator plus one or two children, nested,
children primitives or raw representations) in which no second child
is the absence sentinel `None`, `to_tuple` returns exactly the
original raw representation. -/
theorem c6_round_trip (r : Raw) (hwf : rawWF r = true) (hsnd : rawNoNoneSnd r = true)
    (hnode : isLeafRaw r = false) :
    toTuple (matVal (rawVal r)) = rawVal r := by
  have h := raw_round hwf hsnd
  cases r with
  | leaf v => simp [isLeafRaw] at hnode
  | one op c =>
    have hc : isNodeV (matVal (rawVal (Raw.one op c))) = true := by
      simp [rawVal, matVal, tupToNode, isNodeV]
    rw [if_pos hc] at h
    exact h
  | two op c d =>
    have hc : isNodeV (matVal (rawVal (Raw.two op c d))) = true := by
      simp [rawVal, matVal, tupToNode, isNodeV]
    rw [if_pos hc] at h
    exact h

/-- Witness for the amended C6. -/
theorem c6_witness :
    toTuple (matVal (rawVal (Raw.two (.vstr "add") (.leaf (.vint 1)) (.leaf (.vint 2))))) =
      rawVal (Raw.two (.vstr "add") (.leaf (.vint 1)) (.leaf (.vint 2))) :=
  c6_round_trip _ (by decide) (by decide) (by decide)

/-- Claim C7: registering one implementation as the delegate of
several operator names binds that single implementation under every
named per-operator handler slot (construction-time, shadowing the
plain class methods as instance attributes do), so that for each of
those tags ordinary single-operator dispatch invokes the same
implementation and returns its output. -/
theorem c7_delegated_handlers (st : Bool) (methods : List (String × (Val → Val)))
    (names : List String) (h : Val → Val) (tag : String)
    (hmem : names.contains tag = true) :
    mkHandlers methods [(names, h)] (.vstr tag) = some h
    ∧ ∀ (a b : Val) (x : Extras),
        doProcess (mkProcessor st methods [(names, h)]) (.vnode (.vstr tag) a b x) =
          .ok (h (.vnode (.vstr tag) a b x)) := by
  have hl : mkHandlers methods [(names, h)] (.vstr tag) = some h := by
    have hmem2 : tag ∈ names := by simpa using hmem
    simp [mkHandlers, List.find?, hmem2]
  exact ⟨hl, fun a b x => by simp [doProcess, mkProcessor, hl]⟩

/-- A single implementation registered for both `add` and `sub`. -/
def dupHandler : Val → Val := fun _ => .vint 7

/-- Witness for C7: one handler registered for `{"add", "sub"}` is
found under both tags and dispatch applies the same implementation to
`("add", 1, 2)` and `("sub", 1, 2)`. -/
theorem c7_witness :
    (mkHandlers [] [(["add", "sub"], dupHandler)] (.vstr "add") = some dupHandler
      ∧ doProcess (mkProcessor false [] [(["add", "sub"], dupHandler)])
          (.vnode (.vstr "add") (.vint 1) (.vint 2) []) =
        .ok (dupHandler (.vnode (.vstr "add") (.vint 1) (.vint 2) [])))
    ∧ (mkHandlers [] [(["add", "sub"], dupHandler)] (.vstr "sub") = some dupHandler
      ∧ doProcess (mkProcessor false [] [(["add", "sub"], dupHandler)])
          (.vnode (.vstr "sub") (.vint 1) (.vint 2) []) =
        .ok (dupHandler (.vnode (.vstr "sub") (.vint 1) (.vint 2) []))) :=
  ⟨⟨(c7_delegated_handlers false [] ["add", "sub"] dupHandler "add" (by decide)).1,
    (c7_delegated_handlers false [] ["add", "sub"] dupHandler "add" (by decide)).2
      (.vint 1) (.vint 2) []⟩,
   ⟨(c7_delegated_handlers false [] ["add", "sub"] dupHandler "sub" (by decide)).1,
    (c7_delegated_handlers false [] ["add", "sub"] dupHandler "sub" (by decide)).2
      (.vint 1) (.vint 2) []⟩⟩

/-- Claim C8: operand materialization is memoized.  The first read of
an operand stored as a raw tuple converts it to a node and overwrites
the stored raw form in place; a second read performs no conversion and
returns the same stored value with the node unchanged (so conversion
happens at most once per operand), for both operand slots. -/
theorem c8_memoized_operands (op a b : Val) (x : Extras) (es : List Val) :
    readA (.vnode op (.vtup es) b x) = (tupToNode es, .vnode op (tupToNode es) b x)
    ∧ isNodeV (tupToNode es) = true
    ∧ readA (.vnode op (tupToNode es) b x) = (tupToNode es, .vnode op (tupToNode es) b x)
    ∧ readA ((readA (.vnode op a b x)).2) =
        ((readA (.vnode op a b x)).1, (readA (.vnode op a b x)).2)
    ∧ readB (.vnode op a (.vtup es) x) = (tupToNode es, .vnode op a (tupToNode es) x)
    ∧ readB ((readB (.vnode op a b x)).2) =
        ((readB (.vnode op a b x)).1, (readB (.vnode op a b x)).2) :=
  ⟨by simp [readA, matVal], isNodeV_tupToNode es,
   by simp [readA, matVal_tupToNode], by simp [readA, matVal_matVal],
   by simp [readB, matVal], by simp [readB, matVal_matVal]⟩

/-- Claim C9: a multi-processor can never occur as a member processor
inside one of its own slots.  In the slot-member type of the model
(which, like the source constructor, accepts multi-processors as slot
members) this is impossible by construction of the values themselves,
not by any runtime check in `mpRun` or `chainP` (none exists there to
be caught and retried). -/
theorem c9_no_self_nesting (slots : List (List ProcLike)) (slot : List ProcLike)
    (hmem : slot ∈ slots) : ProcLike.multi slots ∉ slot := by
  intro hm
  have h1 := List.sizeOf_lt_of_mem hm
  have h2 := List.sizeOf_lt_of_mem hmem
  simp at h1
  omega

/-- Witness for C9. -/
theorem c9_witness :
    ProcLike.multi [[ProcLike.single defaultP]] ∉ [ProcLike.single defaultP] :=
  c9_no_self_nesting [[ProcLike.single defaultP]] [ProcLike.single defaultP]
    (List.mem_cons_self _ _)

/-- Claim C10: only tuples are recognized as raw ordered
representations: an input to `process`, or a stored operand, that is
neither a node nor a tuple (for example a Python list shaped like an
`(operator, operandA, operandB)` sequence) is never materialized into
a node; `process` routes it to `process_primitive`, whose default
returns it unchanged, and an operand read returns it as stored. -/
theorem c10_list_not_materialized :
    (∀ (p : Processor) (v : Val), isPrimV v = true → procProcess p v = .ok (p.primH v))
    ∧ (∀ (p : Processor) (es : List Val),
        procProcess p (.vlist es) = .ok (p.primH (.vlist es)))
    ∧ (∀ es : List Val, procProcess defaultP (.vlist es) = .ok (.vlist es))
    ∧ (∀ (op b : Val) (x : Extras) (es : List Val),
        readA (.vnode op (.vlist es) b x) = (.vlist es, .vnode op (.vlist es) b x))
    ∧ (∀ es : List Val, matVal (.vlist es) = .vlist es) := by
  refine ⟨fun p v h => procProcess_prim h,
    fun p es => procProcess_prim (by simp [isPrimV, isTupV, isNodeV]),
    fun es => ?_,
    fun op b x es => by simp [readA, matVal],
    fun es => rfl⟩
  have h := procProcess_prim (p := defaultP) (v := .vlist es)
    (by simp [isPrimV, isTupV, isNodeV])
  simpa [defaultP] using h

/-- Witness for C10: a list shaped like `("op", 1, 2)` passes through
the default processor unchanged. -/
theorem c10_witness :
    procProcess defaultP (.vlist [.vstr "op", .vint 1, .vint 2]) =
      .ok (defaultP.primH (.vlist [.vstr "op", .vint 1, .vint 2])) :=
  c10_list_not_materialized.1 defaultP _ (by decide)
